import Mathlib

/-!
Verification of the Hadamard-test gradient transform
(`src/pennylane/gradients/hadamard_gradient.py`).

The Python source is shallowly embedded below.  Gate angles are kept
abstract in a type `A` (with negation, since the Rot compensation negates
the third Euler angle and `pi/2`); coefficients and numeric results are
rationals.  External collaborators that live outside `src/`
(`rotations_and_diagonal_measurements`, `_get_aux_wire`, the
`gradient_transform` dispatch machinery) are modelled as explicit
parameters or, where the spec pins their behaviour down, as definitions
marked "Modelled from the spec".
-/

set_option autoImplicit false

namespace HadamardGrad

/-- Single-qubit Pauli observables, the alphabet of all generators used by
the transform. -/
inductive Pauli
  | X
  | Y
  | Z
deriving DecidableEq, Repr

/-- A tensor product of single-wire Pauli observables: each factor is a
Pauli together with the wire it acts on.  `qml.PauliZ(w)` is the singleton
word, `qml.prod` / `qml.operation.Tensor` concatenate factor lists. -/
abbrev PauliWord := List (Pauli × Nat)

/-- Measurement process kinds appearing in `tape.measurements`.
`expectation` is `ExpectationMP`, `probability` is `ProbabilityMP`;
the remaining kinds exist only to be rejected by `_hadamard_grad`. -/
inductive MKind
  | expectation
  | probability
  | variance
  | state
  | vnentropy
  | mutualinfo
deriving DecidableEq, Repr

/-- A measurement specification: its kind, an optional Pauli-word
observable (`none` models `m.obs is None`, i.e. a computational-basis
measurement over `wires`), and the measured wires. -/
structure Meas where
  kind : MKind
  obs : Option PauliWord
  wires : List Nat
deriving DecidableEq, Repr

/-- Gate operations.  The first twelve constructors are the supported
gates listed in the source's docstring; `Hadamard` and `CtrlPauliWord`
(`qml.ctrl(gen, control=aux_wire)`) additionally appear in emitted
auxiliary circuits, and `RX`/`RZ` double as the Rot compensation gates. -/
inductive Op (A : Type)
  | RX (θ : A) (w : Nat)
  | RY (θ : A) (w : Nat)
  | RZ (θ : A) (w : Nat)
  | Rot (φ θ ω : A) (w : Nat)
  | PhaseShift (θ : A) (w : Nat)
  | U1 (θ : A) (w : Nat)
  | CRX (θ : A) (c t : Nat)
  | CRY (θ : A) (c t : Nat)
  | CRZ (θ : A) (c t : Nat)
  | IsingXX (θ : A) (w0 w1 : Nat)
  | IsingYY (θ : A) (w0 w1 : Nat)
  | IsingZZ (θ : A) (w0 w1 : Nat)
  | Hadamard (w : Nat)
  | CtrlPauliWord (gen : PauliWord) (ctrl : Nat)
deriving DecidableEq, Repr

/-- Number of gate parameters, used to resolve a flattened tape parameter
index to its owning gate (`tape.get_operation`). -/
def Op.numParams {A : Type} : Op A → Nat
  | .Rot _ _ _ _ => 3
  | .Hadamard _ => 0
  | .CtrlPauliWord _ _ => 0
  | _ => 1

/-- The wires a gate acts on, in PennyLane's order (control wires first
for controlled gates). -/
def Op.opWires {A : Type} : Op A → List Nat
  | .RX _ w => [w]
  | .RY _ w => [w]
  | .RZ _ w => [w]
  | .Rot _ _ _ w => [w]
  | .PhaseShift _ w => [w]
  | .U1 _ w => [w]
  | .CRX _ c t => [c, t]
  | .CRY _ c t => [c, t]
  | .CRZ _ c t => [c, t]
  | .IsingXX _ a b => [a, b]
  | .IsingYY _ a b => [a, b]
  | .IsingZZ _ a b => [a, b]
  | .Hadamard w => [w]
  | .CtrlPauliWord g c => c :: g.map Prod.snd

/-- Test for `qml.Rot`: true exactly for it; used by the composite-rotation
compensation branch (`isinstance(trainable_op, qml.Rot)`). -/
def Op.is_rot {A : Type} : Op A → Bool
  | .Rot _ _ _ _ => true
  | _ => false

/-- A quantum tape: ordered gate list, ordered measurement list, and the
trainable parameter indices (indices into the tape's flattened gate
parameter list, ascending). -/
structure Tape (A : Type) where
  operations : List (Op A)
  measurements : List Meas
  trainableParams : List Nat
deriving DecidableEq, Repr

/-- The tape's wire set: wires of all operations followed by measured
wires, with duplicates removed.  Only its length and membership are used
by the validation code, both of which are insensitive to which duplicate
occurrence is kept. -/
def Tape.wires {A : Type} (t : Tape A) : List Nat :=
  (t.operations.flatMap Op.opWires ++ t.measurements.flatMap Meas.wires).dedup

/-- Resolution step of `tape.get_operation`: resolve a flattened parameter index to
`(owning gate, index of the gate in tape.operations, index of the
parameter within the gate)`.  `none` models the `IndexError` Python would
raise on an out-of-range index. -/
def get_operation {A : Type} : List (Op A) → Nat → Option (Op A × Nat × Nat)
  | [], _ => none
  | o :: rest, t =>
    if t < o.numParams then some (o, 0, t)
    else
      match get_operation rest (t - o.numParams) with
      | some (op, i, p) => some (op, i + 1, p)
      | none => none

/-- The full `tape.get_operation(id_argnum)`: look up the `id_argnum`-th trainable
parameter index and resolve it through the gate list. -/
def tape_get_operation {A : Type} (tape : Tape A) (id_argnum : Nat) :
    Option (Op A × Nat × Nat) :=
  match tape.trainableParams.get? id_argnum with
  | some t => get_operation tape.operations t
  | none => none

/-- The function `_get_generators`: the per-gate-type table of (coefficients,
generators).  The final three rotation cases embed the source's fallback
`trainable_op.generator()`.  Modelled from the spec: the fallback branch
uses the gate's native generator decomposition (defined in
`pennylane/ops`, not under `src/`); for `RX`/`RY`/`RZ` this is the single
term with coefficient `-0.5` and the matching Pauli on the gate's wire.
Parameterless gates never reach this table and get the empty
decomposition. -/
def get_generators {A : Type} : Op A → List ℚ × List PauliWord
  | .PhaseShift _ w => ([-(1 / 2 : ℚ)], [[(Pauli.Z, w)]])
  | .U1 _ w => ([-(1 / 2 : ℚ)], [[(Pauli.Z, w)]])
  | .CRX _ c t =>
    ([-(1 / 4 : ℚ), (1 / 4 : ℚ)], [[(Pauli.X, t)], [(Pauli.Z, c), (Pauli.X, t)]])
  | .CRY _ c t =>
    ([-(1 / 4 : ℚ), (1 / 4 : ℚ)], [[(Pauli.Y, t)], [(Pauli.Z, c), (Pauli.Y, t)]])
  | .CRZ _ c t =>
    ([-(1 / 4 : ℚ), (1 / 4 : ℚ)], [[(Pauli.Z, t)], [(Pauli.Z, c), (Pauli.Z, t)]])
  | .IsingXX _ a b => ([-(1 / 2 : ℚ)], [[(Pauli.X, a), (Pauli.X, b)]])
  | .IsingYY _ a b => ([-(1 / 2 : ℚ)], [[(Pauli.Y, a), (Pauli.Y, b)]])
  | .IsingZZ _ a b => ([-(1 / 2 : ℚ)], [[(Pauli.Z, a), (Pauli.Z, b)]])
  | .Rot _ _ _ w => ([-(1 / 2 : ℚ)], [[(Pauli.Z, w)]])
  | .RX _ w => ([-(1 / 2 : ℚ)], [[(Pauli.X, w)]])
  | .RY _ w => ([-(1 / 2 : ℚ)], [[(Pauli.Y, w)]])
  | .RZ _ w => ([-(1 / 2 : ℚ)], [[(Pauli.Z, w)]])
  | .Hadamard _ => ([], [])
  | .CtrlPauliWord _ _ => ([], [])

/-- Lines 252-253: `ops_to_trainable_op = tape.operations[: idx + 1]`.
Note the owning gate (at position `idx`) is INCLUDED. -/
def ops_to_trainable_op {A : Type} (tape : Tape A) (idx : Nat) : List (Op A) :=
  tape.operations.take (idx + 1)

/-- Line 253: `ops_after_trainable_op = tape.operations[idx + 1 :]`. -/
def ops_after_trainable_op {A : Type} (tape : Tape A) (idx : Nat) : List (Op A) :=
  tape.operations.drop (idx + 1)

/-- The factor list used to build the extended observable (lines
290-295): a `Tensor` contributes its factors, a single observable is
wrapped in a list, and a bare measurement contributes `PauliZ` on each of
its wires. -/
def obs_factors (m : Meas) : PauliWord :=
  match m.obs with
  | some fs => fs
  | none => m.wires.map (fun w => (Pauli.Z, w))

/-- Measurement kind of the extended measurement (lines 300-303):
`ExpectationMP` stays an expectation, everything else becomes `probs`. -/
def extend_kind : MKind → MKind
  | .expectation => .expectation
  | _ => .probability

/-- Lines 289-303: extend one original measurement with `PauliY` on the
auxiliary wire, preserving the measurement kind. -/
def extend_measurement (aux_wire : Nat) (m : Meas) : Meas :=
  let fs := obs_factors m ++ [(Pauli.Y, aux_wire)]
  { kind := extend_kind m.kind, obs := some fs, wires := fs.map Prod.snd }

/-- One emitted auxiliary circuit.  `ops` is the final gate list (line
309: the spliced circuit plus the appended diagonalizing rotations);
`extendedMeasurements` is the measurement list built at lines 287-303
(the tape passed to diagonalization); `measurements` is the final
measurement list after the replacement at line 310. -/
structure EmittedTape (A : Type) where
  ops : List (Op A)
  extendedMeasurements : List Meas
  measurements : List Meas
deriving DecidableEq, Repr

/-- Lines 262-281: the composite-rotation compensation applied to the
(prefix, suffix) pair before each generator insertion.  For the first
Rot parameter the gate itself (the last element of the prefix) is moved
to the front of the suffix; for the second, fixed rotations are appended
to the prefix and prepended to the suffix; otherwise nothing changes.
`piHalf` stands for the real constant `pi / 2`.  `pre.getLast? = none`
would be a `pop` from an empty list, which Python rejects; it is
unreachable because the prefix always contains the owning gate. -/
def rot_compensate {A : Type} [Neg A] (piHalf : A) (op : Op A) (p_idx : Nat)
    (pre suf : List (Op A)) : List (Op A) × List (Op A) :=
  match op with
  | .Rot _ _ ω w =>
    if p_idx = 0 then
      match pre.getLast? with
      | some last => (pre.dropLast, last :: suf)
      | none => (pre, suf)
    else if p_idx = 1 then
      (pre ++ [Op.RZ (-ω) w, Op.RX piHalf w], Op.RX (-piHalf) w :: Op.RZ ω w :: suf)
    else (pre, suf)
  | _ => (pre, suf)

/-- Lines 261-315, the `for gen in generators` loop.  The (prefix,
suffix) state is threaded through the iterations because the source
mutates `ops_to_trainable_op` / `ops_after_trainable_op` in place.
`dR` and `dM` model `qml.tape.tape.rotations_and_diagonal_measurements`
(code outside `src/`): `dR` is the list of diagonalizing rotations
appended to the gate list and `dM` the diagonal replacement of the
measurement list; both are kept abstract since no claim constrains their
content. -/
def emit_for_gens {A : Type} [Neg A] (dR : List Meas → List (Op A))
    (dM : List Meas → List Meas) (piHalf : A) (op : Op A) (p_idx : Nat)
    (aux_wire : Nat) (ms : List Meas) :
    List PauliWord → List (Op A) → List (Op A) → List (EmittedTape A)
  | [], _, _ => []
  | gen :: rest, pre, suf =>
    let ps := rot_compensate piHalf op p_idx pre suf
    let ems := ms.map (extend_measurement aux_wire)
    { ops := ps.1 ++ [Op.Hadamard aux_wire] ++ [Op.CtrlPauliWord gen aux_wire] ++
        [Op.Hadamard aux_wire] ++ ps.2 ++ dR ems,
      extendedMeasurements := ems,
      measurements := dM ems } ::
      emit_for_gens dR dM piHalf op p_idx aux_wire ms rest ps.1 ps.2

/-- The auxiliary circuits emitted for one differentiated trainable
parameter position (lines 250-315): resolve the owning gate, split the
gate list after it, look up the generators and run the generator loop.
An unresolvable index would raise in Python; it yields no tapes here. -/
def param_tapes {A : Type} [Neg A] (dR : List Meas → List (Op A))
    (dM : List Meas → List Meas) (piHalf : A) (tape : Tape A) (aux_wire : Nat)
    (id_argnum : Nat) : List (EmittedTape A) :=
  match tape_get_operation tape id_argnum with
  | none => []
  | some (op, idx, p_idx) =>
    emit_for_gens dR dM piHalf op p_idx aux_wire tape.measurements
      (get_generators op).2 (ops_to_trainable_op tape idx)
      (ops_after_trainable_op tape idx)

/-- Line 256-257: the coefficients contributed by one differentiated
parameter position (`coeffs.extend(sub_coeffs)`). -/
def param_coeffs {A : Type} (tape : Tape A) (id_argnum : Nat) : List ℚ :=
  match tape_get_operation tape id_argnum with
  | none => []
  | some (op, _, _) => (get_generators op).1

/-- Lines 244-317, the `for id_argnum, _ in enumerate(tape.trainable_params)`
loop.  Skipped positions (`id_argnum not in argnums`) contribute a `0`
emission count and nothing else; differentiated positions contribute
their tapes, coefficients and the count of emitted tapes. -/
def expval_loop {A : Type} [Neg A] (dR : List Meas → List (Op A))
    (dM : List Meas → List Meas) (piHalf : A) (tape : Tape A) (aux_wire : Nat)
    (argnums : List Nat) :
    Nat → List Nat → List (EmittedTape A) × List ℚ × List Nat
  | _, [] => ([], [], [])
  | id_argnum, _ :: rest =>
    let acc := expval_loop dR dM piHalf tape aux_wire argnums (id_argnum + 1) rest
    if argnums.contains id_argnum then
      let nts := param_tapes dR dM piHalf tape aux_wire id_argnum
      (nts ++ acc.1, param_coeffs tape id_argnum ++ acc.2.1, nts.length :: acc.2.2)
    else
      (acc.1, acc.2.1, 0 :: acc.2.2)

/-- The function `_expval_hadamard_grad` (lines 228-317): returns the emitted tapes,
the coefficient list (one coefficient per tape, in emission order) and
`gradient_data` (per-parameter emission counts).  Line 234
`argnums = argnum or tape.trainable_params`: both `None` and the empty
list fall back to the tape's trainable parameter indices. -/
def expval_hadamard_grad {A : Type} [Neg A] (dR : List Meas → List (Op A))
    (dM : List Meas → List Meas) (piHalf : A) (tape : Tape A)
    (argnum : Option (List Nat)) (aux_wire : Nat) :
    List (EmittedTape A) × List ℚ × List Nat :=
  let argnums :=
    match argnum with
    | none => tape.trainableParams
    | some l => if l.isEmpty then tape.trainableParams else l
  expval_loop dR dM piHalf tape aux_wire argnums 0 tape.trainableParams

/-- A numeric result value: a scalar (one expectation value) or a flat
vector (one probability distribution).  All arithmetic on these mirrors
the backend-agnostic `qml.math` array operations. -/
inductive MVal
  | scalar (x : ℚ)
  | vec (xs : List ℚ)
deriving DecidableEq, Repr

/-- The raw result of executing one emitted tape: a bare value when the
tape has a single measurement, a tuple of values (one per measurement)
otherwise.  This mirrors the `isinstance(res, tuple)` branching of the
post-processing code. -/
inductive TapeResult
  | single (v : MVal)
  | tup (vs : List MVal)
deriving DecidableEq, Repr

/-- Elementwise scaling `2 * coeff * r` of one value (line 324/326). -/
def scale_mval (c : ℚ) : MVal → MVal
  | .scalar x => .scalar (2 * c * x)
  | .vec xs => .vec (xs.map fun x => 2 * c * x)

/-- Lines 323-328: scale one raw result, elementwise over the measurement
tuple when there is one. -/
def scale_result (c : ℚ) : TapeResult → TapeResult
  | .single v => .single (scale_mval c v)
  | .tup vs => .tup (vs.map (scale_mval c))

/-- Line 239-243: the indices of the probability measurements of the
original tape. -/
def prob_indices (ms : List Meas) : List Nat :=
  ((List.range ms.length).zip ms).filterMap fun im =>
    if im.2.kind = MKind.probability then some im.1 else none

/-- The contraction of a row-major `(k, 2)` matrix against the projector
`[1, -1]`: consecutive pairs `a, b` become `a - b`. -/
def projectPairs : List ℚ → List ℚ
  | a :: b :: rest => (a - b) :: projectPairs rest
  | _ => []

/-- Lines 341-349: `reshape(res, (2**n, 2))` followed by
`tensordot(., [1, -1], axes=[[1],[0]])`.  `none` models the `ValueError`
numpy raises when the vector's size is not `2^n * 2` (and the error from
reshaping a scalar). -/
def reshape_project (n : Nat) : MVal → Option MVal
  | .vec xs => if xs.length = 2 ^ n * 2 then some (.vec (projectPairs xs)) else none
  | .scalar _ => none

/-- An error-propagating map: apply `f` to every element in order and
abort at the first failure, exactly as each Python loop aborts at the
first raised exception. -/
def map_option {α β : Type} (f : α → Option β) : List α → Option (List β)
  | [] => some []
  | a :: t =>
    match f a with
    | none => none
    | some b =>
      match map_option f t with
      | none => none
      | some bs => some (b :: bs)

/-- Lines 345-349, the single-measurement branch of the probability
post-processing: the (unique) probability measurement index is looked up
once and every scaled result is reshaped and projected.  A tuple result
under a single measurement is ill-shaped caller input and maps to `none`. -/
def probs_post_single (ms : List Meas) (mp : List Nat)
    (final_res : List TapeResult) : Option (List TapeResult) :=
  match mp with
  | [] => some final_res
  | prob_idx :: _ =>
    match ms.get? prob_idx with
    | none => none
    | some m =>
      map_option
        (fun r =>
          match r with
          | .single v => (reshape_project m.wires.length v).map .single
          | .tup _ => none)
        final_res

/-- Lines 338-344, the multi-measurement branch applied to one scaled
result: each probability-measurement entry of the tuple is reshaped and
projected in place.  Indexing errors (`res[prob_idx]` out of range, or a
non-tuple result) map to `none`. -/
def probs_post_multi (ms : List Meas) (mp : List Nat) :
    TapeResult → Option TapeResult
  | .tup vs =>
    (mp.foldlM
      (fun (acc : List MVal) (prob_idx : Nat) =>
        match ms.get? prob_idx with
        | none => none
        | some m =>
          match acc.get? prob_idx with
          | none => none
          | some v =>
            match reshape_project m.wires.length v with
            | none => none
            | some v2 => some (acc.set prob_idx v2))
      vs).map .tup
  | .single _ => none

/-- Flatten one tape result to the scalar sum of all its entries:
`qml.math.sum(..., axis=None)` sums every element of every array. -/
def mval_total : MVal → ℚ
  | .scalar x => x
  | .vec xs => xs.sum

/-- Total of a whole tape result, for the `axis=None` sum. -/
def tape_result_total : TapeResult → ℚ
  | .single v => mval_total v
  | .tup vs => (vs.map mval_total).sum

/-- numpy addition of two result values, including scalar-vector
broadcasting. -/
def mval_add : MVal → MVal → MVal
  | .scalar a, .scalar b => .scalar (a + b)
  | .scalar a, .vec b => .vec (b.map fun x => a + x)
  | .vec a, .scalar b => .vec (a.map fun x => x + b)
  | .vec a, .vec b => .vec (List.zipWith (· + ·) a b)

/-- The per-measurement view of a tape result used by the `axis=0` sum. -/
def as_mval_list : TapeResult → List MVal
  | .single v => [v]
  | .tup vs => vs

/-- Embeds `qml.math.sum(slice, axis=0)`: elementwise sum over the tape axis. -/
def sum_axis0 (vss : List (List MVal)) : List MVal :=
  match vss with
  | [] => []
  | h :: t => t.foldl (fun acc vs => List.zipWith mval_add acc vs) h

/-- Line 359-360: the multi-term aggregation of one slice of results.
With several measurements the sum runs along axis 0 (elementwise over
the tape axis); with a single measurement `axis=None` collapses the
whole slice to one scalar. -/
def sum_slice (multi_measurements : Bool) (slice : List TapeResult) : TapeResult :=
  if multi_measurements then .tup (sum_axis0 (slice.map as_mval_list))
  else .single (.scalar (slice.map tape_result_total).sum)

/-- Lines 350-361: walk `gradient_data`, consuming the (scaled,
projected) results in emission order.  A zero count contributes the
scalar `qml.math.zeros(())`; a count of one takes the next result
(`none` models the `IndexError` when results are exhausted); a larger
count sums the next `num_tape` results (Python slicing truncates
silently, hence `take`). -/
def grads_loop (multi_measurements : Bool) :
    List TapeResult → List Nat → Option (List TapeResult)
  | _, [] => some []
  | fr, num_tape :: rest =>
    if num_tape = 0 then
      (grads_loop multi_measurements fr rest).map
        (fun g => TapeResult.single (.scalar 0) :: g)
    else if num_tape = 1 then
      match fr.head? with
      | none => none
      | some h =>
        (grads_loop multi_measurements (fr.drop 1) rest).map (fun g => h :: g)
    else
      (grads_loop multi_measurements (fr.drop num_tape) rest).map
        (fun g => sum_slice multi_measurements (fr.take num_tape) :: g)

/-- The post-processed gradient, in the source's four shape cases:
a bare entry (one parameter, one measurement), a tuple over measurements
(one parameter), a tuple over parameters (one measurement), or a tuple
over measurements of tuples over parameters. -/
inductive GradOutput
  | single (g : TapeResult)
  | tupM (vs : List MVal)
  | tupP (gs : List TapeResult)
  | tupMP (rows : List (List MVal))
deriving DecidableEq, Repr

/-- Embeds `tuple(g)` on one gradient entry (line 368): a measurement tuple
iterates to itself, a 1-d array iterates to its scalar elements, and
iterating a 0-d array raises `TypeError` (`none`). -/
def tuple_of : TapeResult → Option (List MVal)
  | .tup vs => some vs
  | .single (.vec xs) => some (xs.map MVal.scalar)
  | .single (.scalar _) => none

/-- Embeds `grads[j][i]` (line 376): index into a measurement tuple or a 1-d
array; indexing a 0-d array raises `IndexError` (`none`). -/
def entry_at : TapeResult → Nat → Option MVal
  | .tup vs, i => vs.get? i
  | .single (.vec xs), i => (xs.get? i).map MVal.scalar
  | .single (.scalar _), _ => none

/-- Lines 363-380: the shape reconciliation.  `m` and `k` are the
original tape's measurement and trainable-parameter counts; the
dimensions of `grads_reorder` are exactly those of the source. -/
def shape_reconcile (multi_measurements multi_params : Bool) (m k : Nat)
    (grads : List TapeResult) : Option GradOutput :=
  if !multi_measurements && !multi_params then
    (grads.get? 0).map GradOutput.single
  else if !(multi_params && multi_measurements) then
    if multi_measurements then
      match grads.get? 0 with
      | none => none
      | some g => (tuple_of g).map GradOutput.tupM
    else some (GradOutput.tupP grads)
  else
    (map_option
        (fun i =>
          map_option
            (fun j =>
              match grads.get? j with
              | none => none
              | some g => entry_at g i)
            (List.range k))
        (List.range m)).map
      GradOutput.tupMP

/-- The closure `processing_fn` (lines 319-380): scale by `2 * coeff`, project the
probability measurements, aggregate per parameter, and reconcile the
shape.  `none` models any of the runtime errors the Python code can
raise on ill-shaped input. -/
def processing_fn {A : Type} (tape : Tape A) (coeffs : List ℚ)
    (gradient_data : List Nat) (results : List TapeResult) :
    Option GradOutput :=
  let multi_measurements := tape.measurements.length > 1
  let multi_params := tape.trainableParams.length > 1
  let final_res := (coeffs.zip results).map fun cr => scale_result cr.1 cr.2
  let measurements_probs := prob_indices tape.measurements
  let step2 : Option (List TapeResult) :=
    if measurements_probs.isEmpty then some final_res
    else if multi_measurements then
      map_option (probs_post_multi tape.measurements measurements_probs)
        final_res
    else probs_post_single tape.measurements measurements_probs final_res
  match step2 with
  | none => none
  | some fr2 =>
    match grads_loop multi_measurements fr2 gradient_data with
    | none => none
    | some grads =>
      shape_reconcile multi_measurements multi_params
        tape.measurements.length tape.trainableParams.length grads

/-- A trainable parameter's local gradient method as determined by the
external `gradient_analysis` / `grad_method_validation` collaborators
(the `gradient_transform` module, not under `src/`): `"0"` or `"A"`. -/
inductive DiffMethod
  | zero
  | analytic
deriving DecidableEq, Repr

/-- The error conditions `_hadamard_grad` can raise, in source order:
the `qml.active_return()` precondition, the two unsupported-measurement
`ValueError`s, and the three `QuantumFunctionError`s of the
auxiliary-wire validation.  `noneTypeNotIterable` models the `TypeError`
Python raises at line 218 when an explicit auxiliary wire is supplied
but `device_wires` is `None`. -/
inductive GradError
  | newReturnTypeRequired
  | varianceNotImplemented
  | stateNotSupported
  | deviceNoFreeWire
  | auxWireAlreadyUsed
  | auxWireNotOnDevice
  | noneTypeNotIterable
deriving DecidableEq, Repr

/-- The successful outcomes of `_hadamard_grad`: the two trivial-gradient
shortcuts (delegated to external collaborators) or the emitted tapes with
their coefficient list and emission counts. -/
inductive HGradResult (A : Type)
  | noTrainable
  | allZero
  | grad (tapes : List (EmittedTape A)) (coeffs : List ℚ) (gdata : List Nat)
deriving DecidableEq, Repr

/-- Test for the measurement kind rejected at line 187
(`isinstance(m, VarianceMP)`). -/
def is_variance (m : Meas) : Bool :=
  match m.kind with
  | .variance => true
  | _ => false

/-- Test for the measurement kinds rejected at line 191
(`isinstance(m, (StateMP, VnEntropyMP, MutualInfoMP))`). -/
def is_state_like (m : Meas) : Bool :=
  match m.kind with
  | .state => true
  | .vnentropy => true
  | .mutualinfo => true
  | _ => false

/-- Modelled from the spec: `choose_grad_methods` (the
`gradient_transform` module, not under `src/`) restricts the
per-trainable-parameter method assignment to the requested indices, or
keeps all of them when no indices are requested. -/
def choose_grad_methods (diff_methods : List DiffMethod)
    (argnum : Option (List Nat)) : List (Nat × DiffMethod) :=
  match argnum with
  | none =>
    (List.range diff_methods.length).filterMap fun i =>
      (diff_methods.get? i).map fun dm => (i, dm)
  | some l => l.filterMap fun i => (diff_methods.get? i).map fun dm => (i, dm)

/-- Line 210: `device_wires and len(tape.wires) == len(device_wires)`.
An absent or empty wire set is falsy and skips the check. -/
def device_no_free_wire {A : Type} (tape : Tape A)
    (device_wires : Option (List Nat)) : Bool :=
  match device_wires with
  | none => false
  | some dw => !dw.isEmpty && tape.wires.length == dw.length

/-- The function `_hadamard_grad` (lines 33-225).  External inputs are modelled as
parameters: `active_return` is the `qml.active_return()` flag,
`diff_methods` the result of `grad_method_validation` (one entry per
trainable parameter) and `default_aux` the wire the external
`_get_aux_wire` collaborator would pick when none is supplied.  The
checks appear in source order. -/
def hadamard_grad {A : Type} [Neg A] (dR : List Meas → List (Op A))
    (dM : List Meas → List Meas) (piHalf : A) (active_return : Bool)
    (tape : Tape A) (argnum : Option (List Nat)) (aux_wire : Option Nat)
    (device_wires : Option (List Nat)) (diff_methods : List DiffMethod)
    (default_aux : Nat) : Except GradError (HGradResult A) :=
  if active_return = false then .error .newReturnTypeRequired
  else if tape.measurements.any is_variance then .error .varianceNotImplemented
  else if tape.measurements.any is_state_like then .error .stateNotSupported
  else if argnum.isNone && tape.trainableParams.isEmpty then .ok .noTrainable
  else if diff_methods.all (· = DiffMethod.zero) then .ok .allZero
  else
    let method_map := choose_grad_methods diff_methods argnum
    let argnum2 := method_map.filterMap fun p =>
      if p.2 = DiffMethod.analytic then some p.1 else none
    if device_no_free_wire tape device_wires then .error .deviceNoFreeWire
    else
      match aux_wire with
      | none =>
        let r := expval_hadamard_grad dR dM piHalf tape (some argnum2) default_aux
        .ok (.grad r.1 r.2.1 r.2.2)
      | some aw =>
        if aw ∈ tape.wires then .error .auxWireAlreadyUsed
        else
          match device_wires with
          | none => .error .noneTypeNotIterable
          | some dw =>
            if aw ∈ dw then
              let r := expval_hadamard_grad dR dM piHalf tape (some argnum2) aw
              .ok (.grad r.1 r.2.1 r.2.2)
            else .error .auxWireNotOnDevice

/-! ### Helper lemmas -/

theorem get_operation_get? {A : Type} :
    ∀ (ops : List (Op A)) (t : Nat) (op : Op A) (idx p : Nat),
      get_operation ops t = some (op, idx, p) → ops.get? idx = some op := by
  intro ops
  induction ops with
  | nil => intro t op idx p h; simp [get_operation] at h
  | cons o rest ih =>
    intro t op idx p h
    rw [get_operation] at h
    split at h
    · simp only [Option.some.injEq, Prod.mk.injEq] at h
      obtain ⟨rfl, rfl, rfl⟩ := h
      rfl
    · cases hrec : get_operation rest (t - o.numParams) with
      | none => rw [hrec] at h; simp at h
      | some trip =>
        obtain ⟨op2, i2, p2⟩ := trip
        rw [hrec] at h
        simp only [Option.some.injEq, Prod.mk.injEq] at h
        obtain ⟨rfl, rfl, rfl⟩ := h
        simpa using ih _ _ _ _ hrec

theorem tape_get_operation_get? {A : Type} (tape : Tape A) (i : Nat)
    (op : Op A) (idx p : Nat) (h : tape_get_operation tape i = some (op, idx, p)) :
    tape.operations.get? idx = some op := by
  rw [tape_get_operation] at h
  cases htp : tape.trainableParams.get? i with
  | none => rw [htp] at h; exact absurd h (by simp)
  | some t => rw [htp] at h; exact get_operation_get? _ _ _ _ _ h

theorem take_succ_of_get? {A : Type} (l : List A) (n : Nat) (a : A)
    (h : l.get? n = some a) : l.take (n + 1) = l.take n ++ [a] := by
  rw [List.get?_eq_getElem?] at h
  rw [List.take_succ, h]
  rfl

theorem emit_for_gens_length {A : Type} [Neg A] (dR : List Meas → List (Op A))
    (dM : List Meas → List Meas) (piHalf : A) (op : Op A) (p_idx : Nat)
    (aux_wire : Nat) (ms : List Meas) :
    ∀ (gens : List PauliWord) (pre suf : List (Op A)),
      (emit_for_gens dR dM piHalf op p_idx aux_wire ms gens pre suf).length =
        gens.length := by
  intro gens
  induction gens with
  | nil => intro pre suf; rfl
  | cons g rest ih =>
    intro pre suf
    rw [emit_for_gens]
    simpa using ih _ _

theorem emit_for_gens_get? {A : Type} [Neg A] (dR : List Meas → List (Op A))
    (dM : List Meas → List Meas) (piHalf : A) (op : Op A) (p_idx : Nat)
    (aux_wire : Nat) (ms : List Meas) :
    ∀ (gens : List PauliWord) (pre suf : List (Op A)) (k : Nat) (g : PauliWord),
      gens.get? k = some g →
      ∃ pre2 suf2 : List (Op A),
        (emit_for_gens dR dM piHalf op p_idx aux_wire ms gens pre suf).get? k =
          some { ops := pre2 ++ [Op.Hadamard aux_wire] ++
                   [Op.CtrlPauliWord g aux_wire] ++ [Op.Hadamard aux_wire] ++
                   suf2 ++ dR (ms.map (extend_measurement aux_wire)),
                 extendedMeasurements := ms.map (extend_measurement aux_wire),
                 measurements := dM (ms.map (extend_measurement aux_wire)) } := by
  intro gens
  induction gens with
  | nil => intro pre suf k g h; simp at h
  | cons g0 rest ih =>
    intro pre suf k g h
    rw [emit_for_gens]
    cases k with
    | zero =>
      obtain rfl : g0 = g := by simpa using h
      exact ⟨(rot_compensate piHalf op p_idx pre suf).1,
        (rot_compensate piHalf op p_idx pre suf).2, rfl⟩
    | succ k2 =>
      simp only [List.get?] at h ⊢
      exact ih _ _ k2 g h

theorem rot_compensate_nonrot {A : Type} [Neg A] (piHalf : A) (op : Op A)
    (p_idx : Nat) (pre suf : List (Op A)) (h : op.is_rot = false) :
    rot_compensate piHalf op p_idx pre suf = (pre, suf) := by
  cases op <;> first | rfl | simp [Op.is_rot] at h

theorem emit_for_gens_get?_nonrot {A : Type} [Neg A]
    (dR : List Meas → List (Op A)) (dM : List Meas → List Meas) (piHalf : A)
    (op : Op A) (p_idx : Nat) (aux_wire : Nat) (ms : List Meas)
    (h : op.is_rot = false) :
    ∀ (gens : List PauliWord) (pre suf : List (Op A)) (k : Nat) (g : PauliWord),
      gens.get? k = some g →
      (emit_for_gens dR dM piHalf op p_idx aux_wire ms gens pre suf).get? k =
        some { ops := pre ++ [Op.Hadamard aux_wire] ++
                 [Op.CtrlPauliWord g aux_wire] ++ [Op.Hadamard aux_wire] ++
                 suf ++ dR (ms.map (extend_measurement aux_wire)),
               extendedMeasurements := ms.map (extend_measurement aux_wire),
               measurements := dM (ms.map (extend_measurement aux_wire)) } := by
  intro gens
  induction gens with
  | nil => intro pre suf k g hg; simp at hg
  | cons g0 rest ih =>
    intro pre suf k g hg
    rw [emit_for_gens, rot_compensate_nonrot piHalf op p_idx pre suf h]
    cases k with
    | zero =>
      obtain rfl : g0 = g := by simpa using hg
      rfl
    | succ k2 =>
      simp only [List.get?] at hg ⊢
      exact ih _ _ k2 g hg

/-! ### Claim theorems -/

/-- C2: the generator lookup returns, for phase-shift/U1 gates, exactly
one term with coefficient `-0.5` and generator `Z` on the gate's wire;
for CRX/CRY/CRZ, exactly two terms with coefficients `-0.25` and `+0.25`
whose generators are the axis-matching Pauli on the target and
`Z(control)` tensored with that Pauli on the target; and for
IsingXX/YY/ZZ, exactly one term with coefficient `-0.5` and generator
the matching Pauli tensored with itself on the two wires. -/
theorem claim_C2_generator_table {A : Type} (θ : A) (w c t a b : Nat) :
    get_generators (Op.PhaseShift θ w) = ([-(1 / 2 : ℚ)], [[(Pauli.Z, w)]]) ∧
    get_generators (Op.U1 θ w) = ([-(1 / 2 : ℚ)], [[(Pauli.Z, w)]]) ∧
    get_generators (Op.CRX θ c t) =
      ([-(1 / 4 : ℚ), (1 / 4 : ℚ)],
        [[(Pauli.X, t)], [(Pauli.Z, c), (Pauli.X, t)]]) ∧
    get_generators (Op.CRY θ c t) =
      ([-(1 / 4 : ℚ), (1 / 4 : ℚ)],
        [[(Pauli.Y, t)], [(Pauli.Z, c), (Pauli.Y, t)]]) ∧
    get_generators (Op.CRZ θ c t) =
      ([-(1 / 4 : ℚ), (1 / 4 : ℚ)],
        [[(Pauli.Z, t)], [(Pauli.Z, c), (Pauli.Z, t)]]) ∧
    get_generators (Op.IsingXX θ a b) =
      ([-(1 / 2 : ℚ)], [[(Pauli.X, a), (Pauli.X, b)]]) ∧
    get_generators (Op.IsingYY θ a b) =
      ([-(1 / 2 : ℚ)], [[(Pauli.Y, a), (Pauli.Y, b)]]) ∧
    get_generators (Op.IsingZZ θ a b) =
      ([-(1 / 2 : ℚ)], [[(Pauli.Z, a), (Pauli.Z, b)]]) :=
  ⟨rfl, rfl, rfl, rfl, rfl, rfl, rfl, rfl⟩

/-- C10: `_expval_hadamard_grad` treats an empty `argnum` list the same
as no list at all: with `argnum = []` it emits exactly the same
auxiliary circuits, coefficients and per-parameter emission counts as
with the full list of the tape's trainable parameter indices, and the
same as with `argnum = None`. -/
theorem claim_C10_empty_argnum {A : Type} [Neg A]
    (dR : List Meas → List (Op A)) (dM : List Meas → List Meas) (piHalf : A)
    (tape : Tape A) (aux_wire : Nat) :
    expval_hadamard_grad dR dM piHalf tape (some []) aux_wire =
      expval_hadamard_grad dR dM piHalf tape (some tape.trainableParams)
        aux_wire ∧
    expval_hadamard_grad dR dM piHalf tape (some []) aux_wire =
      expval_hadamard_grad dR dM piHalf tape none aux_wire := by
  constructor
  · rw [expval_hadamard_grad, expval_hadamard_grad]
    cases h : tape.trainableParams with
    | nil => simp [h]
    | cons a l => simp [h]
  · rw [expval_hadamard_grad, expval_hadamard_grad]
    simp

/-- A concrete one-gate tape used by the concrete instances below:
`RX(1)` on wire 0 with `expval(PauliZ(0))`, one trainable parameter. -/
def exTapeRX : Tape Int :=
  ⟨[Op.RX 1 0], [⟨MKind.expectation, some [(Pauli.Z, 0)], [0]⟩], [0]⟩

/-- The trivial diagonalization collaborator used in concrete instances:
no rotations. -/
def dRnil : List Meas → List (Op Int) := fun _ => []

/-- C1 counterexample: the claim says the owning gate is removed from
the emitted auxiliary circuit (appearing in neither prefix nor suffix).
On the concrete tape `[RX(1) on wire 0]` with its single trainable
parameter differentiated, the emitted circuit is
`[RX, Hadamard(aux), ctrl-X(aux), Hadamard(aux)]`: the owning `RX` gate
is kept (the prefix `tape.operations[: idx + 1]` includes it), refuting
the claim. -/
theorem claim_C1_counterexample :
    (expval_hadamard_grad dRnil id (1 : Int) exTapeRX none 1).1.map
        EmittedTape.ops =
      [[Op.RX 1 0, Op.Hadamard 1, Op.CtrlPauliWord [(Pauli.X, 0)] 1,
        Op.Hadamard 1]] ∧
    Op.RX (1 : Int) 0 ∈
      [Op.RX (1 : Int) 0, Op.Hadamard 1, Op.CtrlPauliWord [(Pauli.X, 0)] 1,
        Op.Hadamard 1] := by
  exact ⟨rfl, by simp⟩

/-- C1 (amended): for every differentiated trainable parameter, the
split keeps the owning gate: the prefix is all gates up to AND INCLUDING
the owning gate (it ends with the owning gate), the suffix is all gates
strictly after it, and for a non-Rot owning gate every emitted auxiliary
circuit keeps the owning gate in place, immediately before the
Hadamard/controlled-generator/Hadamard block. -/
theorem claim_C1_amended_split {A : Type} [Neg A]
    (dR : List Meas → List (Op A)) (dM : List Meas → List Meas) (piHalf : A)
    (tape : Tape A) (aux_wire i : Nat) (op : Op A) (idx p : Nat)
    (h : tape_get_operation tape i = some (op, idx, p)) :
    ops_to_trainable_op tape idx = tape.operations.take idx ++ [op] ∧
    ops_after_trainable_op tape idx = tape.operations.drop (idx + 1) ∧
    op ∈ ops_to_trainable_op tape idx ∧
    (op.is_rot = false →
      ∀ (k : Nat) (g : PauliWord), (get_generators op).2.get? k = some g →
        (param_tapes dR dM piHalf tape aux_wire i).get? k =
          some { ops := tape.operations.take idx ++ [op] ++
                   [Op.Hadamard aux_wire] ++ [Op.CtrlPauliWord g aux_wire] ++
                   [Op.Hadamard aux_wire] ++ tape.operations.drop (idx + 1) ++
                   dR (tape.measurements.map (extend_measurement aux_wire)),
                 extendedMeasurements :=
                   tape.measurements.map (extend_measurement aux_wire),
                 measurements :=
                   dM (tape.measurements.map (extend_measurement aux_wire)) }) := by
  have hget : tape.operations.get? idx = some op :=
    tape_get_operation_get? _ _ _ _ _ h
  have htake : tape.operations.take (idx + 1) =
      tape.operations.take idx ++ [op] := take_succ_of_get? _ _ _ hget
  refine ⟨?_, rfl, ?_, ?_⟩
  · rw [ops_to_trainable_op, htake]
  · rw [ops_to_trainable_op, htake]
    simp
  · intro hrot k g hg
    rw [param_tapes, h]
    have := emit_for_gens_get?_nonrot dR dM piHalf op p aux_wire
      tape.measurements hrot (get_generators op).2
      (ops_to_trainable_op tape idx) (ops_after_trainable_op tape idx) k g hg
    rw [this]
    rw [ops_to_trainable_op, htake, ops_after_trainable_op]

/-- C1 amended witness: the concrete one-gate tape, with the hypothesis
discharged by evaluation; the owning `RX` gate is a member of the prefix. -/
theorem claim_C1_amended_split_witness :
    Op.RX (1 : Int) 0 ∈ ops_to_trainable_op exTapeRX 0 :=
  (claim_C1_amended_split dRnil id 1 exTapeRX 1 0 (Op.RX 1 0) 0 0 rfl).2.2.1

/-- C3: for a Rot gate the lookup yields the single reduced term
`(-0.5, Z(wire))`, and the transform compensates per parameter slot:
for the first parameter the Rot gate is moved from the end of the prefix
to the start of the suffix; for the second parameter `RZ(-ω)` then
`RX(+pi/2)` are appended to the prefix and `RX(-pi/2)` then `RZ(ω)` are
prepended to the suffix; for the third parameter no compensation gates
are inserted. -/
theorem claim_C3_rot_compensation {A : Type} [Neg A]
    (dR : List Meas → List (Op A)) (dM : List Meas → List Meas) (piHalf : A)
    (tape : Tape A) (aux_wire i : Nat) (φ θ ω : A) (w idx p : Nat)
    (h : tape_get_operation tape i = some (Op.Rot φ θ ω w, idx, p)) :
    get_generators (Op.Rot φ θ ω w) = ([-(1 / 2 : ℚ)], [[(Pauli.Z, w)]]) ∧
    (p = 0 →
      param_tapes dR dM piHalf tape aux_wire i =
        [{ ops := tape.operations.take idx ++ [Op.Hadamard aux_wire] ++
             [Op.CtrlPauliWord [(Pauli.Z, w)] aux_wire] ++
             [Op.Hadamard aux_wire] ++
             (Op.Rot φ θ ω w :: tape.operations.drop (idx + 1)) ++
             dR (tape.measurements.map (extend_measurement aux_wire)),
           extendedMeasurements :=
             tape.measurements.map (extend_measurement aux_wire),
           measurements :=
             dM (tape.measurements.map (extend_measurement aux_wire)) }]) ∧
    (p = 1 →
      param_tapes dR dM piHalf tape aux_wire i =
        [{ ops := (tape.operations.take (idx + 1) ++
             [Op.RZ (-ω) w, Op.RX piHalf w]) ++ [Op.Hadamard aux_wire] ++
             [Op.CtrlPauliWord [(Pauli.Z, w)] aux_wire] ++
             [Op.Hadamard aux_wire] ++
             (Op.RX (-piHalf) w :: Op.RZ ω w ::
               tape.operations.drop (idx + 1)) ++
             dR (tape.measurements.map (extend_measurement aux_wire)),
           extendedMeasurements :=
             tape.measurements.map (extend_measurement aux_wire),
           measurements :=
             dM (tape.measurements.map (extend_measurement aux_wire)) }]) ∧
    (p = 2 →
      param_tapes dR dM piHalf tape aux_wire i =
        [{ ops := tape.operations.take (idx + 1) ++ [Op.Hadamard aux_wire] ++
             [Op.CtrlPauliWord [(Pauli.Z, w)] aux_wire] ++
             [Op.Hadamard aux_wire] ++ tape.operations.drop (idx + 1) ++
             dR (tape.measurements.map (extend_measurement aux_wire)),
           extendedMeasurements :=
             tape.measurements.map (extend_measurement aux_wire),
           measurements :=
             dM (tape.measurements.map (extend_measurement aux_wire)) }]) := by
  have hget : tape.operations.get? idx = some (Op.Rot φ θ ω w) :=
    tape_get_operation_get? _ _ _ _ _ h
  have htake : tape.operations.take (idx + 1) =
      tape.operations.take idx ++ [Op.Rot φ θ ω w] :=
    take_succ_of_get? _ _ _ hget
  refine ⟨rfl, ?_, ?_, ?_⟩ <;> intro hp <;> subst hp <;>
    simp only [param_tapes, h, get_generators, emit_for_gens, rot_compensate,
      ops_to_trainable_op, ops_after_trainable_op]
  · rw [htake]
    simp [List.getLast?_concat, List.dropLast_concat]
  · simp
  · simp

/-- C3 witness: the concrete tape `[RY(5), Rot(1,2,3), RX(7)]` over
wires 0 and 1, differentiating the second Rot parameter (trainable index
2): the compensation rotations appear around the controlled generator. -/
theorem claim_C3_rot_compensation_witness :
    param_tapes dRnil id (9 : Int)
        ⟨[Op.RY 5 0, Op.Rot 1 2 3 0, Op.RX 7 1],
         [⟨MKind.expectation, some [(Pauli.Z, 0)], [0]⟩], [0, 1, 2, 3, 4]⟩ 5 2 =
      [{ ops := ([Op.RY 5 0, Op.Rot 1 2 3 0] ++ [Op.RZ (-3) 0, Op.RX 9 0]) ++
           [Op.Hadamard 5] ++ [Op.CtrlPauliWord [(Pauli.Z, 0)] 5] ++
           [Op.Hadamard 5] ++
           (Op.RX (-9) 0 :: Op.RZ 3 0 :: [Op.RX 7 1]) ++
           dRnil ([⟨MKind.expectation, some [(Pauli.Z, 0)], [0]⟩].map
             (extend_measurement 5)),
         extendedMeasurements :=
           [⟨MKind.expectation, some [(Pauli.Z, 0)], [0]⟩].map
             (extend_measurement 5),
         measurements :=
           id ([⟨MKind.expectation, some [(Pauli.Z, 0)], [0]⟩].map
             (extend_measurement 5)) }] :=
  (claim_C3_rot_compensation dRnil id 9
      ⟨[Op.RY 5 0, Op.Rot 1 2 3 0, Op.RX 7 1],
       [⟨MKind.expectation, some [(Pauli.Z, 0)], [0]⟩], [0, 1, 2, 3, 4]⟩
      5 2 1 2 3 0 1 1 rfl).2.2.1 rfl

/-- C4: for every generator term of every differentiated parameter, the
emitted auxiliary circuit's gate list is
prefix ++ [Hadamard(aux)] ++ [aux-controlled generator] ++ [Hadamard(aux)]
++ suffix, followed by the appended diagonalizing rotations; and each
original measurement is replaced by a measurement of the same kind
(expectation stays expectation, probability stays probability) of the
extended observable: the original observable's factors (or `Z` on each
measured wire when no observable is given) tensored with `Y` on the
auxiliary wire. -/
theorem claim_C4_aux_circuit_structure {A : Type} [Neg A]
    (dR : List Meas → List (Op A)) (dM : List Meas → List Meas) (piHalf : A)
    (tape : Tape A) (aux_wire i : Nat) (op : Op A) (idx p : Nat)
    (h : tape_get_operation tape i = some (op, idx, p)) :
    (param_tapes dR dM piHalf tape aux_wire i).length =
      (get_generators op).2.length ∧
    (∀ (k : Nat) (g : PauliWord), (get_generators op).2.get? k = some g →
      ∃ pre suf : List (Op A),
        (param_tapes dR dM piHalf tape aux_wire i).get? k =
          some { ops := pre ++ [Op.Hadamard aux_wire] ++
                   [Op.CtrlPauliWord g aux_wire] ++ [Op.Hadamard aux_wire] ++
                   suf ++
                   dR (tape.measurements.map (extend_measurement aux_wire)),
                 extendedMeasurements :=
                   tape.measurements.map (extend_measurement aux_wire),
                 measurements :=
                   dM (tape.measurements.map (extend_measurement aux_wire)) }) ∧
    (∀ m : Meas, m ∈ tape.measurements →
      (m.kind = MKind.expectation →
        (extend_measurement aux_wire m).kind = MKind.expectation) ∧
      (m.kind = MKind.probability →
        (extend_measurement aux_wire m).kind = MKind.probability) ∧
      (extend_measurement aux_wire m).obs =
        some (obs_factors m ++ [(Pauli.Y, aux_wire)])) := by
  refine ⟨?_, ?_, ?_⟩
  · rw [param_tapes, h]
    exact emit_for_gens_length dR dM piHalf op p aux_wire tape.measurements _ _ _
  · intro k g hg
    rw [param_tapes, h]
    exact emit_for_gens_get? dR dM piHalf op p aux_wire tape.measurements _ _ _
      k g hg
  · intro m _
    refine ⟨?_, ?_, rfl⟩
    · intro hk; simp [extend_measurement, extend_kind, hk]
    · intro hk; simp [extend_measurement, extend_kind, hk]

/-- C4 witness: on the concrete one-gate tape the single emitted
auxiliary circuit count equals the generator term count. -/
theorem claim_C4_aux_circuit_structure_witness :
    (param_tapes dRnil id (1 : Int) exTapeRX 1 0).length =
      (get_generators (Op.RX (1 : Int) 0)).2.length :=
  (claim_C4_aux_circuit_structure dRnil id 1 exTapeRX 1 0 (Op.RX 1 0) 0 0
    rfl).1

theorem projectPairs_length : ∀ xs : List ℚ,
    (projectPairs xs).length = xs.length / 2
  | [] => by simp [projectPairs]
  | [_] => by simp [projectPairs]
  | _ :: _ :: rest => by
    rw [projectPairs]
    simp only [List.length_cons, projectPairs_length rest]
    omega

theorem projectPairs_getD : ∀ (xs : List ℚ) (i : Nat),
    2 * i + 1 < xs.length →
    (projectPairs xs).getD i 0 = xs.getD (2 * i) 0 - xs.getD (2 * i + 1) 0
  | [], i, h => by simp at h
  | [_], i, h => by simp at h
  | a :: b :: rest, 0, _ => by simp [projectPairs]
  | a :: b :: rest, i + 1, h => by
    have hlt : 2 * i + 1 < rest.length := by
      simp only [List.length_cons] at h; omega
    have ih := projectPairs_getD rest i hlt
    have e1 : 2 * (i + 1) = 2 * i + 1 + 1 := by ring
    rw [projectPairs, e1]
    simp only [List.getD_cons_succ]
    exact ih

/-- C6: for a probability measurement over `n` original wires, the
post-processing reshapes the scaled flat outcome vector (of length
`2^n * 2`, the trailing axis being the auxiliary qubit's outcome) and
contracts the trailing axis against the fixed projector `[1, -1]`: the
result has one entry per original outcome, and entry `i` equals the
probability with auxiliary outcome 0 minus the probability with
auxiliary outcome 1 for that original outcome. -/
theorem claim_C6_prob_projection (n : Nat) (xs : List ℚ)
    (h : xs.length = 2 ^ n * 2) :
    reshape_project n (MVal.vec xs) = some (MVal.vec (projectPairs xs)) ∧
    (projectPairs xs).length = 2 ^ n ∧
    ∀ i : Nat, i < 2 ^ n →
      (projectPairs xs).getD i 0 = xs.getD (2 * i) 0 - xs.getD (2 * i + 1) 0 := by
  refine ⟨by simp [reshape_project, h], ?_, ?_⟩
  · rw [projectPairs_length, h]
    omega
  · intro i hi
    exact projectPairs_getD xs i (by omega)

/-- C6 witness: the spec's concrete instance: the aux-extended
probability vector `[0.3, 0.2, 0.1, 0.4]` of a 1-wire probability
measurement projects to `[0.1, -0.3]`. -/
theorem claim_C6_prob_projection_witness :
    ([(3 : ℚ) / 10, 2 / 10, 1 / 10, 4 / 10] : List ℚ).length = 2 ^ 1 * 2 ∧
    reshape_project 1 (MVal.vec [(3 : ℚ) / 10, 2 / 10, 1 / 10, 4 / 10]) =
      some (MVal.vec (projectPairs [(3 : ℚ) / 10, 2 / 10, 1 / 10, 4 / 10])) ∧
    projectPairs [(3 : ℚ) / 10, 2 / 10, 1 / 10, 4 / 10] =
      [(1 : ℚ) / 10, -((3 : ℚ) / 10)] :=
  ⟨rfl,
   (claim_C6_prob_projection 1 [(3 : ℚ) / 10, 2 / 10, 1 / 10, 4 / 10] rfl).1,
   by norm_num [projectPairs]⟩

/-- A concrete tape with one trainable `CRX` parameter (two generator
terms) and a single 1-wire probability measurement — the failing input
for the multi-term aggregation. -/
def exTapeCRX : Tape Int :=
  ⟨[Op.CRX 1 0 1], [⟨MKind.probability, none, [0]⟩], [0]⟩

/-- C5, code bug at the multi-term aggregation: the transform emits two
circuits for the CRX parameter with coefficients `-0.25` and `+0.25`
(first conjunct), the scaled and projected per-circuit results are the
two length-2 vectors `[-1/20, 3/20]` and `[1/20, 1/20]` (second
conjunct), and their elementwise sum — what the claim requires — is the
vector `[0, 1/5]` (third conjunct).  But `processing_fn` uses
`qml.math.sum(..., axis=None)` when the tape has a single measurement,
collapsing the two vectors to the single scalar `1/5` (fourth
conjunct), which is not an elementwise sum: the returned entry is a
scalar, not a vector (fifth conjunct). -/
theorem claim_C5_code_bug_eval :
    (expval_hadamard_grad dRnil id (1 : Int) exTapeCRX none 2).2 =
      ([-(1 / 4 : ℚ), (1 / 4 : ℚ)], [2]) ∧
    probs_post_single exTapeCRX.measurements [0]
        [scale_result (-(1 / 4))
           (TapeResult.single (MVal.vec [3 / 10, 2 / 10, 1 / 10, 4 / 10])),
         scale_result (1 / 4)
           (TapeResult.single (MVal.vec [2 / 10, 1 / 10, 4 / 10, 3 / 10]))] =
      some [TapeResult.single (MVal.vec [-(1 / 20), 3 / 20]),
            TapeResult.single (MVal.vec [1 / 20, 1 / 20])] ∧
    mval_add (MVal.vec [-(1 / 20 : ℚ), 3 / 20]) (MVal.vec [1 / 20, 1 / 20]) =
      MVal.vec [0, 1 / 5] ∧
    processing_fn exTapeCRX [-(1 / 4 : ℚ), (1 / 4 : ℚ)] [2]
        [TapeResult.single (MVal.vec [3 / 10, 2 / 10, 1 / 10, 4 / 10]),
         TapeResult.single (MVal.vec [2 / 10, 1 / 10, 4 / 10, 3 / 10])] =
      some (GradOutput.single (TapeResult.single (MVal.scalar (1 / 5)))) ∧
    ∀ ys : List ℚ,
      TapeResult.single (MVal.scalar (1 / 5 : ℚ)) ≠
        TapeResult.single (MVal.vec ys) := by
  refine ⟨rfl, ?_, ?_, ?_, by intro ys h; cases h⟩
  · norm_num [probs_post_single, exTapeCRX, scale_result, scale_mval,
      reshape_project, projectPairs, map_option]
  · norm_num [mval_add]
  · norm_num [processing_fn, exTapeCRX, prob_indices, scale_result, scale_mval,
      probs_post_single, reshape_project, projectPairs, grads_loop, sum_slice,
      tape_result_total, mval_total, shape_reconcile, map_option,
      List.filterMap_cons, List.isEmpty, List.range_succ]

theorem exists_map_option {α β : Type} (f : α → Option β) :
    ∀ l : List α, (∀ a ∈ l, ∃ b, f a = some b) →
      ∃ bl : List β, map_option f l = some bl ∧ bl.length = l.length ∧
        ∀ (i : Nat) (a : α), l.get? i = some a → bl.get? i = f a := by
  intro l
  induction l with
  | nil =>
    intro _
    exact ⟨[], rfl, rfl, by intro i a h; simp at h⟩
  | cons a t ih =>
    intro h
    obtain ⟨b, hb⟩ := h a (by simp)
    obtain ⟨bl, hbl, hlen, hget⟩ := ih (fun x hx => h x (by simp [hx]))
    refine ⟨b :: bl, ?_, by simp [hlen], ?_⟩
    · rw [map_option, hb, hbl]
    · intro i x hx
      cases i with
      | zero =>
        simp only [List.get?, Option.some.injEq] at hx
        subst hx
        simp [hb]
      | succ i2 =>
        simp only [List.get?] at hx ⊢
        exact hget i2 x hx

/-- C7: the returned gradient follows the four-case shape convention:
one parameter and one measurement return the lone entry directly;
several parameters and one measurement return the sequence of the `k`
per-parameter entries; one parameter and several measurements return
the sequence over the `m` measurements; several of both return a
sequence over measurements of sequences over parameters, with entry
`(i, j)` of the returned nesting equal to entry `i` of per-parameter
entry `j`. -/
theorem claim_C7_shape_convention (m k : Nat) (grads : List TapeResult)
    (hk : grads.length = k)
    (hent : 1 < m → ∀ g ∈ grads,
      ∃ vs : List MVal, g = TapeResult.tup vs ∧ vs.length = m) :
    (m = 1 → k = 1 → ∃ g, grads = [g] ∧
      shape_reconcile (decide (1 < m)) (decide (1 < k)) m k grads =
        some (GradOutput.single g)) ∧
    (m = 1 → 1 < k →
      shape_reconcile (decide (1 < m)) (decide (1 < k)) m k grads =
        some (GradOutput.tupP grads) ∧ grads.length = k) ∧
    (1 < m → k = 1 →
      ∃ vs : List MVal, grads.get? 0 = some (TapeResult.tup vs) ∧
        vs.length = m ∧
        shape_reconcile (decide (1 < m)) (decide (1 < k)) m k grads =
          some (GradOutput.tupM vs)) ∧
    (1 < m → 1 < k →
      ∃ rows : List (List MVal),
        shape_reconcile (decide (1 < m)) (decide (1 < k)) m k grads =
          some (GradOutput.tupMP rows) ∧
        rows.length = m ∧
        ∀ i : Nat, i < m →
          ∃ row : List MVal, rows.get? i = some row ∧ row.length = k ∧
            ∀ j : Nat, j < k →
              ∃ (vs : List MVal) (mv : MVal),
                grads.get? j = some (TapeResult.tup vs) ∧
                vs.get? i = some mv ∧ row.get? j = some mv) := by
  refine ⟨?_, ?_, ?_, ?_⟩
  · intro hm hk1
    subst hm; subst hk1
    cases grads with
    | nil => simp at hk
    | cons g t =>
      cases t with
      | nil => exact ⟨g, rfl, by simp [shape_reconcile]⟩
      | cons g2 t2 => simp at hk
  · intro hm hk2
    subst hm
    refine ⟨?_, hk⟩
    have : decide (1 < k) = true := by simpa using hk2
    simp [shape_reconcile, this]
  · intro hm2 hk1
    subst hk1
    cases grads with
    | nil => simp at hk
    | cons g t =>
      cases t with
      | nil =>
        obtain ⟨vs, rfl, hvs⟩ := hent hm2 g (by simp)
        have : decide (1 < m) = true := by simpa using hm2
        exact ⟨vs, rfl, hvs, by simp [shape_reconcile, this, tuple_of]⟩
      | cons g2 t2 => simp at hk
  · intro hm2 hk2
    have hmb : decide (1 < m) = true := by simpa using hm2
    have hkb : decide (1 < k) = true := by simpa using hk2
    have hinner : ∀ i : Nat, i < m →
        ∃ row : List MVal,
          map_option
            (fun j =>
              match grads.get? j with
              | none => none
              | some g => entry_at g i)
            (List.range k) = some row ∧
          row.length = k ∧
          ∀ j : Nat, j < k →
            ∃ (vs : List MVal) (mv : MVal),
              grads.get? j = some (TapeResult.tup vs) ∧
              vs.get? i = some mv ∧ row.get? j = some mv := by
      intro i hi
      have hje : ∀ j ∈ List.range k,
          ∃ b, (match grads.get? j with
                | none => none
                | some g => entry_at g i) = some b := by
        intro j hj
        have hjk : j < k := by simpa using hj
        have hjlt : j < grads.length := by rw [hk]; exact hjk
        obtain ⟨g, hg⟩ : ∃ g, grads.get? j = some g :=
          ⟨grads.get ⟨j, hjlt⟩, List.get?_eq_get hjlt⟩
        obtain ⟨vs, rfl, hvs⟩ := hent hm2 g (List.get?_mem hg)
        have hivs : i < vs.length := by rw [hvs]; exact hi
        obtain ⟨mv, hmv⟩ : ∃ mv, vs.get? i = some mv :=
          ⟨vs.get ⟨i, hivs⟩, List.get?_eq_get hivs⟩
        exact ⟨mv, by rw [hg]; simpa [entry_at] using hmv⟩
      obtain ⟨row, hrow, hrlen, hrget⟩ :=
        exists_map_option _ (List.range k) hje
      refine ⟨row, hrow, by simp [hrlen], ?_⟩
      intro j hjk
      have hjr : (List.range k).get? j = some j := by
        rw [List.get?_eq_getElem?]
        simp [hjk]
      have hrj := hrget j j hjr
      have hjlt : j < grads.length := by rw [hk]; exact hjk
      obtain ⟨g, hg⟩ : ∃ g, grads.get? j = some g :=
        ⟨grads.get ⟨j, hjlt⟩, List.get?_eq_get hjlt⟩
      obtain ⟨vs, rfl, hvs⟩ := hent hm2 g (List.get?_mem hg)
      rw [hg] at hrj
      have hivs : i < vs.length := by rw [hvs]; exact hi
      obtain ⟨mv, hmv⟩ : ∃ mv, vs.get? i = some mv :=
        ⟨vs.get ⟨i, hivs⟩, List.get?_eq_get hivs⟩
      refine ⟨vs, mv, hg, hmv, ?_⟩
      rw [hrj]
      simpa [entry_at] using hmv
    have houter : ∀ i ∈ List.range m,
        ∃ b,
          map_option
            (fun j =>
              match grads.get? j with
              | none => none
              | some g => entry_at g i)
            (List.range k) = some b := by
      intro i hi
      obtain ⟨row, hrow, _, _⟩ := hinner i (by simpa using hi)
      exact ⟨row, hrow⟩
    obtain ⟨rows, hrows, hlen, hget⟩ := exists_map_option _ (List.range m) houter
    refine ⟨rows, ?_, by simp [hlen], ?_⟩
    · simp only [List.get?_eq_getElem?] at hrows
      simp [shape_reconcile, hmb, hkb, hrows]
    · intro i hi
      have hir : (List.range m).get? i = some i := by
        rw [List.get?_eq_getElem?]
        simp [hi]
      have hgi := hget i i hir
      obtain ⟨row, hrow, hrlen, hrget⟩ := hinner i hi
      rw [hrow] at hgi
      exact ⟨row, hgi, hrlen, hrget⟩

/-- C7 witness: two parameters and two measurements, with concrete
per-parameter gradient entries; the reconciliation transposes them into
a measurement-major nesting. -/
theorem claim_C7_shape_convention_witness :
    ∃ rows : List (List MVal),
      shape_reconcile (decide (1 < 2)) (decide (1 < 2)) 2 2
          [TapeResult.tup [MVal.scalar 1, MVal.scalar 2],
           TapeResult.tup [MVal.scalar 3, MVal.scalar 4]] =
        some (GradOutput.tupMP rows) ∧
      rows.length = 2 ∧
      ∀ i : Nat, i < 2 →
        ∃ row : List MVal, rows.get? i = some row ∧ row.length = 2 ∧
          ∀ j : Nat, j < 2 →
            ∃ (vs : List MVal) (mv : MVal),
              [TapeResult.tup [MVal.scalar 1, MVal.scalar 2],
                TapeResult.tup [MVal.scalar 3, MVal.scalar 4]].get? j =
                some (TapeResult.tup vs) ∧
              vs.get? i = some mv ∧ row.get? j = some mv :=
  (claim_C7_shape_convention 2 2
      [TapeResult.tup [MVal.scalar 1, MVal.scalar 2],
       TapeResult.tup [MVal.scalar 3, MVal.scalar 4]] rfl
      (by
        intro _ g hg
        simp only [List.mem_cons, List.not_mem_nil, or_false] at hg
        rcases hg with rfl | rfl
        · exact ⟨[MVal.scalar 1, MVal.scalar 2], rfl, rfl⟩
        · exact ⟨[MVal.scalar 3, MVal.scalar 4], rfl, rfl⟩)).2.2.2
    (by norm_num) (by norm_num)

/-- C8: whenever the input circuit contains a variance, state, entropy
or mutual-information measurement, the transform raises an error before
any circuit is built (no tape list is produced): a variance measurement
yields the variance error, otherwise the state-family error. -/
theorem claim_C8_unsupported_measurements {A : Type} [Neg A]
    (dR : List Meas → List (Op A)) (dM : List Meas → List Meas) (piHalf : A)
    (tape : Tape A) (argnum : Option (List Nat)) (aux_wire : Option Nat)
    (device_wires : Option (List Nat)) (diff_methods : List DiffMethod)
    (default_aux : Nat)
    (h : tape.measurements.any (fun mm => is_variance mm || is_state_like mm) =
      true) :
    (tape.measurements.any is_variance = true →
      hadamard_grad dR dM piHalf true tape argnum aux_wire device_wires
        diff_methods default_aux = .error .varianceNotImplemented) ∧
    (tape.measurements.any is_variance = false →
      hadamard_grad dR dM piHalf true tape argnum aux_wire device_wires
        diff_methods default_aux = .error .stateNotSupported) ∧
    ∃ e : GradError,
      hadamard_grad dR dM piHalf true tape argnum aux_wire device_wires
        diff_methods default_aux = .error e := by
  have h1 : tape.measurements.any is_variance = true →
      hadamard_grad dR dM piHalf true tape argnum aux_wire device_wires
        diff_methods default_aux = .error .varianceNotImplemented := by
    intro hv
    simp [hadamard_grad, hv]
  have h2 : tape.measurements.any is_variance = false →
      hadamard_grad dR dM piHalf true tape argnum aux_wire device_wires
        diff_methods default_aux = .error .stateNotSupported := by
    intro hv
    have hs : tape.measurements.any is_state_like = true := by
      rw [List.any_eq_true] at h ⊢
      obtain ⟨mm, hmm, hor⟩ := h
      refine ⟨mm, hmm, ?_⟩
      rw [List.any_eq_false] at hv
      have hvm := hv mm hmm
      rcases Bool.or_eq_true_iff.mp hor with hx | hx
      · exact absurd hx (by simp [hvm])
      · exact hx
    simp [hadamard_grad, hv, hs]
  refine ⟨h1, h2, ?_⟩
  cases hv : tape.measurements.any is_variance with
  | true => exact ⟨_, h1 hv⟩
  | false => exact ⟨_, h2 hv⟩

/-- C8 witness: a circuit whose only measurement is a variance
measurement is rejected with the variance error. -/
theorem claim_C8_unsupported_measurements_witness :
    hadamard_grad dRnil id (1 : Int) true
        ⟨[], [⟨MKind.variance, none, [0]⟩], []⟩ none none none [] 0 =
      .error .varianceNotImplemented :=
  (claim_C8_unsupported_measurements dRnil id 1
      ⟨[], [⟨MKind.variance, none, [0]⟩], []⟩ none none none [] 0 rfl).1 rfl

/-- C9: the auxiliary-wire validation.  Whenever a nonempty device wire
set is supplied whose wire count equals the circuit's wire count, the
transform aborts with the no-spare-wire error (whatever the auxiliary
wire argument).  When that check passes, an explicitly supplied
auxiliary wire already appearing among the circuit's wires aborts with
the conflict error, and one absent from the supplied device wire set
aborts with the distinct not-on-device error.  The three errors are
pairwise distinct, and in each case the result is an error (no circuit
is built). -/
theorem claim_C9_aux_wire_validation {A : Type} [Neg A]
    (dR : List Meas → List (Op A)) (dM : List Meas → List Meas) (piHalf : A)
    (tape : Tape A) (argnum : Option (List Nat))
    (device_wires : Option (List Nat)) (diff_methods : List DiffMethod)
    (default_aux : Nat)
    (hbad : tape.measurements.any
      (fun mm => is_variance mm || is_state_like mm) = false)
    (htr : ¬(argnum = none ∧ tape.trainableParams = []))
    (hdm : diff_methods.all (· = DiffMethod.zero) = false) :
    (device_no_free_wire tape device_wires = true →
      ∀ aux_wire : Option Nat,
        hadamard_grad dR dM piHalf true tape argnum aux_wire device_wires
          diff_methods default_aux = .error .deviceNoFreeWire) ∧
    (device_no_free_wire tape device_wires = false →
      ∀ aw : Nat, aw ∈ tape.wires →
        hadamard_grad dR dM piHalf true tape argnum (some aw) device_wires
          diff_methods default_aux = .error .auxWireAlreadyUsed) ∧
    (device_no_free_wire tape device_wires = false →
      ∀ (aw : Nat) (dw : List Nat), device_wires = some dw →
        aw ∉ tape.wires → aw ∉ dw →
        hadamard_grad dR dM piHalf true tape argnum (some aw) device_wires
          diff_methods default_aux = .error .auxWireNotOnDevice) ∧
    (GradError.deviceNoFreeWire ≠ GradError.auxWireAlreadyUsed ∧
      GradError.deviceNoFreeWire ≠ GradError.auxWireNotOnDevice ∧
      GradError.auxWireAlreadyUsed ≠ GradError.auxWireNotOnDevice) := by
  have hvar : tape.measurements.any is_variance = false := by
    rw [List.any_eq_false] at hbad ⊢
    intro mm hmm
    have hb := hbad mm hmm
    simp only [Bool.or_eq_true, not_or, Bool.not_eq_true] at hb
    simp [hb.1]
  have hstate : tape.measurements.any is_state_like = false := by
    rw [List.any_eq_false] at hbad ⊢
    intro mm hmm
    have hb := hbad mm hmm
    simp only [Bool.or_eq_true, not_or, Bool.not_eq_true] at hb
    simp [hb.2]
  have hnt : (argnum.isNone && tape.trainableParams.isEmpty) = false := by
    cases hn : argnum with
    | none =>
      cases htp : tape.trainableParams with
      | nil => exact (htr ⟨hn, htp⟩).elim
      | cons a l => simp [htp]
    | some l => simp
  refine ⟨?_, ?_, ?_, by simp, by simp, by simp⟩
  · intro hfree aux_wire
    simp [hadamard_grad, hvar, hstate, hnt, hdm, hfree]
  · intro hfree aw hin
    simp [hadamard_grad, hvar, hstate, hnt, hdm, hfree, hin]
  · intro hfree aw dw hdw hnin hnd
    subst hdw
    simp [hadamard_grad, hvar, hstate, hnt, hdm, hfree, hnin, hnd]

/-- C9 witness: a one-wire circuit with a one-wire device has no spare
wire for the auxiliary qubit and is rejected. -/
theorem claim_C9_aux_wire_validation_witness :
    hadamard_grad dRnil id (1 : Int) true exTapeRX none none (some [5])
        [DiffMethod.analytic] 7 = .error .deviceNoFreeWire :=
  (claim_C9_aux_wire_validation dRnil id 1 exTapeRX none (some [5])
      [DiffMethod.analytic] 7 rfl (by simp [exTapeRX]) rfl).1 rfl none

end HadamardGrad
